import Mathlib

/-!
Verification of the yesod DSL runner: a shallow embedding of its parser
(grammar.pegjs), argument resolver (src/parser.ts), statement validator and
executor (src/runner.ts), and the run entry point (src/index.ts), with
theorems checking the specification claims against the embedded code.
-/

namespace Yesod

/-- A variable reference in the DSL, or a literal string; mirrors the TS union
`ArgumentValue = string | ReferencedVariable`. -/
inductive ArgumentValue where
  | lit (s : String)
  | varRef (name : String)
deriving DecidableEq, Repr

/-- Mirrors the TS interface `Command`: name, positional arguments in order,
and named arguments as a JavaScript object, modelled as an association list in
property insertion order. -/
structure Command where
  name : String
  positionalArgs : List ArgumentValue
  namedArgs : List (String × ArgumentValue)
deriving DecidableEq, Repr

/-- Mirrors the TS union `Statement = VariableAssignment | ExecutableCommand`. -/
inductive Statement where
  | assignment (variableName : String) (command : Command)
  | command (command : Command)
deriving DecidableEq, Repr

/-- The command of a statement, as `stmt.command` in the TS source. -/
def Statement.cmd : Statement → Command
  | .assignment _ c => c
  | .command c => c

/-- The check `stmt.type === "command"` of the TS source. -/
def Statement.isBare : Statement → Bool
  | .assignment _ _ => false
  | .command _ => true

/-- A JavaScript runtime value, as far as the runner observes one: action
results stored in the global context are `any`, and the resolver only ever
compares them with `undefined` and converts them with `String`. -/
inductive JsValue where
  | undefined
  | str (s : String)
  | num (n : Int)
  | bool (b : Bool)
  | obj (fields : List (String × JsValue))

/-- The `value === undefined` test of the resolver. -/
def JsValue.isUndefined : JsValue → Bool
  | .undefined => true
  | _ => false

/-- JavaScript `String(value)` on the value shapes of the model: strings pass
through, integers print in decimal, booleans print as true or false, and a
plain object prints as [object Object] regardless of its fields. -/
def jsString : JsValue → String
  | .undefined => "undefined"
  | .str s => s
  | .num n => toString n
  | .bool b => if b then "true" else "false"
  | .obj _ => "[object Object]"

/-- JavaScript property read `m[k]` on an object modelled as an association
list: the value at the key, or `undefined` when the key is absent. -/
def jsGet (m : List (String × JsValue)) (k : String) : JsValue :=
  match m.find? (fun p => p.1 = k) with
  | some p => p.2
  | none => .undefined

/-- JavaScript property write `m[k] = v`: overwrite in place when the key is
present (last write wins, position kept), otherwise append. -/
def jsSet {α : Type} (m : List (String × α)) (k : String) (v : α) :
    List (String × α) :=
  if m.any (fun p => p.1 = k) then
    m.map (fun p => if p.1 = k then (k, v) else p)
  else
    m ++ [(k, v)]

/-- The error thrown by `resolveArgument` in src/parser.ts. The TS fallback
branch for a malformed argument object is unrepresentable here because
`ArgumentValue` is a closed union. -/
inductive ResolveError where
  | undefinedVariable (name : String)
deriving DecidableEq, Repr

/-- `resolveArgument` from src/parser.ts: a string literal resolves to itself;
a variable reference reads the context, throws when the read yields
`undefined`, and otherwise converts the value with `String`. -/
def resolveArgument (context : List (String × JsValue)) (arg : ArgumentValue) :
    Except ResolveError String :=
  match arg with
  | .lit s => .ok s
  | .varRef name =>
    let value := jsGet context name
    if value.isUndefined then .error (.undefinedVariable name)
    else .ok (jsString value)

/-- `resolveCommandArgs` from src/parser.ts: resolve the positional arguments
in order, then the named arguments in entry order, failing on the first
resolution error. -/
def resolveCommandArgs (globalContext : List (String × JsValue))
    (command : Command) :
    Except ResolveError (List String × List (String × String)) := do
  let resolvedPositionalArgs ← command.positionalArgs.mapM
    (fun posArg => resolveArgument globalContext posArg)
  let resolvedNamedArgs ← command.namedArgs.mapM
    (fun p => do pure (p.1, ← resolveArgument globalContext p.2))
  pure (resolvedPositionalArgs, resolvedNamedArgs)

/-- Mirrors the TS `CommandDefinition`: the action is the host-supplied
callable, modelled as a pure function from the resolved arguments to either a
thrown error message or a returned JavaScript value. -/
structure CommandDefinition where
  action : List String → List (String × String) → Except String JsValue
  description : Option String := none
  argsDescription : Option (List String) := none
  returns : Option String := none

/-- JavaScript truthiness of the optional `returns` annotation: truthy exactly
when present and non-empty. -/
def returnsTruthy : Option String → Bool
  | none => false
  | some s => s ≠ ""

/-- The message pushed by `validateStatements` for an unknown command. -/
def unknownCommandMsg (name : String) : String :=
  "Unknown command: \x27" ++ name ++ "\x27"

/-- The message pushed by `validateStatements` for a bare invocation of a
command that declares a return value. -/
def mustAssignMsg (name : String) (ret : String) : String :=
  "Command \x27" ++ name ++
    "\x27 returns a value and must be assigned to a variable\n" ++
    "  Expected: varname:(" ++ name ++ " ...) or _:(" ++ name ++
    " ...) to ignore the return value\n" ++
    "  Returns: " ++ ret

/-- `validateStatements` from src/runner.ts: one pass over the statements,
collecting an unknown-command message (and skipping the second check) when the
name is not registered, and a must-assign message when a command with a truthy
`returns` is invoked without an assignment. -/
def validateStatements (statements : List Statement)
    (commandMap : String → Option CommandDefinition) : List String :=
  match statements with
  | [] => []
  | stmt :: rest =>
    match commandMap stmt.cmd.name with
    | none =>
      unknownCommandMsg stmt.cmd.name :: validateStatements rest commandMap
    | some command =>
      if returnsTruthy command.returns ∧ stmt.isBare then
        mustAssignMsg stmt.cmd.name (command.returns.getD "") ::
          validateStatements rest commandMap
      else
        validateStatements rest commandMap

/-- One call of a registered action during a run: the command name and the
resolved positional and named arguments it was invoked with. -/
structure Invocation where
  name : String
  positionalArgs : List String
  namedArgs : List (String × String)
deriving DecidableEq, Repr

/-- An error aborting `executeStatements`: a resolution failure, the verbatim
error of a failing action, or the crash on the unchecked `commandMap` read for
an unregistered name. -/
inductive ExecError where
  | resolve (e : ResolveError)
  | actionError (msg : String)
  | missingCommand (name : String)
deriving DecidableEq, Repr

/-- The loop body of `executeStatements`: executes statements in order against
the accumulated global context, recording each action invocation in `trace`,
and stopping at the first error. The trace models the observable action calls
(side effects) of the run; on failure the context built so far is dropped,
exactly as the TS function never returns it. -/
def execLoop (statements : List Statement)
    (commandMap : String → Option CommandDefinition)
    (globalContext : List (String × JsValue)) (trace : List Invocation) :
    List Invocation × Except ExecError (List (String × JsValue)) :=
  match statements with
  | [] => (trace, .ok globalContext)
  | stmt :: rest =>
    match commandMap stmt.cmd.name with
    | none => (trace, .error (.missingCommand stmt.cmd.name))
    | some command =>
      match resolveCommandArgs globalContext stmt.cmd with
      | .error e => (trace, .error (.resolve e))
      | .ok (resolvedPositionalArgs, resolvedNamedArgs) =>
        let trace := trace ++
          [⟨stmt.cmd.name, resolvedPositionalArgs, resolvedNamedArgs⟩]
        match command.action resolvedPositionalArgs resolvedNamedArgs with
        | .error msg => (trace, .error (.actionError msg))
        | .ok result =>
          match stmt with
          | .assignment variableName _ =>
            execLoop rest commandMap
              (jsSet globalContext variableName result) trace
          | .command _ =>
            execLoop rest commandMap globalContext trace

/-- `executeStatements` from src/runner.ts, modelled without wall-clock
timing: starts from an empty global context and returns the trace of action
invocations together with either the final context or the first error. -/
def executeStatements (statements : List Statement)
    (commandMap : String → Option CommandDefinition) :
    List Invocation × Except ExecError (List (String × JsValue)) :=
  execLoop statements commandMap [] []

/-- The failure of `run` in src/index.ts: either the validation error thrown
before execution, carrying all collected messages, or an execution error. -/
inductive RunError where
  | validation (errors : List String)
  | exec (e : ExecError)
deriving DecidableEq, Repr

/-- The parse-free core of `run` from src/index.ts: validate every statement
first and throw with all collected errors before anything executes; otherwise
execute the statements and return the global context. -/
def runStatements (statements : List Statement)
    (commandMap : String → Option CommandDefinition) :
    List Invocation × Except RunError (List (String × JsValue)) :=
  let errors := validateStatements statements commandMap
  if errors = [] then
    let r := executeStatements statements commandMap
    (r.1, r.2.mapError RunError.exec)
  else
    ([], .error (.validation errors))

/-! The PEG grammar of grammar.pegjs, embedded as a recursive-descent parser
over `List Char` with the PEG semantics of ordered choice (try the first
alternative, backtrack wholly on failure) and greedy repetition. Each parsing
function returns the parsed value with the unconsumed input, or `none`. -/

/-- The character class `[ \t\n\r]` of the whitespace rule. -/
def isWsChar (c : Char) : Bool :=
  c = ' ' ∨ c = '\t' ∨ c = '\n' ∨ c = '\r'

/-- The character class `[a-zA-Z0-9_-]` of the Identifier rule. -/
def isIdentChar (c : Char) : Bool :=
  c.isAlpha ∨ c.isDigit ∨ c = '_' ∨ c = '-'

/-- The character class `[a-zA-Z0-9_:-]` of the CommandName rule. -/
def isCmdNameChar (c : Char) : Bool :=
  isIdentChar c ∨ c = ':'

/-- The character class `[^ \t\n\r:()$]` of the UnquotedString rule. -/
def isUnquotedChar (c : Char) : Bool :=
  ¬ (c = ' ' ∨ c = '\t' ∨ c = '\n' ∨ c = '\r' ∨ c = ':' ∨ c = '(' ∨
     c = ')' ∨ c = '$')

/-- The body of the Comment rule, `[^\n\r]*`: drop up to the line end. -/
def dropComment (l : List Char) : List Char :=
  l.dropWhile (fun c => ¬ (c = '\n' ∨ c = '\r'))

theorem dropWhile_length_le {α : Type} (p : α → Bool) (l : List α) :
    (l.dropWhile p).length ≤ l.length := by
  have h := congrArg List.length (List.takeWhile_append_dropWhile p l)
  rw [List.length_append] at h
  omega

/-- The rule `_ = ([ \t\n\r] / "\\" "\n" / Comment)*`: greedily consume
whitespace characters, backslash-newline line continuations, and // comments. -/
def skipWs (l : List Char) : List Char :=
  match l with
  | [] => []
  | c :: rest =>
    if isWsChar c then skipWs rest
    else if c = '\\' then
      match rest with
      | '\n' :: rest2 => skipWs rest2
      | _ => c :: rest
    else if c = '/' then
      match rest with
      | '/' :: rest2 => skipWs (dropComment rest2)
      | _ => c :: rest
    else c :: rest
termination_by l.length
decreasing_by
  · simp only [List.length_cons]; omega
  · simp only [List.length_cons]; omega
  · simp only [List.length_cons]
    have := dropWhile_length_le (fun c => ¬ (c = '\n' ∨ c = '\r')) rest2
    unfold dropComment
    omega

/-- A run `chars:p+ { return chars.join(); }` over a character class: the
maximal non-empty span of matching characters, as a string. -/
def parseCharRun (p : Char → Bool) (l : List Char) :
    Option (String × List Char) :=
  match l.takeWhile p with
  | [] => none
  | cs => some (String.mk cs, l.dropWhile p)

/-- The Identifier rule. -/
def parseIdentifier (l : List Char) : Option (String × List Char) :=
  parseCharRun isIdentChar l

/-- The CommandName rule. -/
def parseCommandName (l : List Char) : Option (String × List Char) :=
  parseCharRun isCmdNameChar l

/-- The UnquotedString rule. -/
def parseUnquotedString (l : List Char) : Option (String × List Char) :=
  parseCharRun isUnquotedChar l

/-- The star `([^"\\] / "\\".)*` inside the QuotedString rule, together with
its semantic action: any character other than a quote or backslash is kept,
and a backslash followed by any character is unescaped by dropping the
backslash. Returns the decoded characters and the unconsumed input. -/
def parseQChars : List Char → List Char × List Char
  | [] => ([], [])
  | c :: rest =>
    if c = '"' then ([], c :: rest)
    else if c = '\\' then
      match rest with
      | [] => ([], [c])
      | d :: rest2 =>
        let (cs, r) := parseQChars rest2
        (d :: cs, r)
    else
      let (cs, r) := parseQChars rest
      (c :: cs, r)

/-- The QuotedString rule: an opening quote, the decoded character star, and a
closing quote. -/
def parseQuotedString (l : List Char) : Option (String × List Char) :=
  match l with
  | '"' :: rest =>
    match parseQChars rest with
    | (cs, '"' :: r2) => some (String.mk cs, r2)
    | _ => none
  | _ => none

/-- The Literal rule: QuotedString, else UnquotedString. -/
def parseLiteral (l : List Char) : Option (ArgumentValue × List Char) :=
  match parseQuotedString l with
  | some (s, r) => some (.lit s, r)
  | none =>
    match parseUnquotedString l with
    | some (s, r) => some (.lit s, r)
    | none => none

/-- The VariableReference rule: a dollar sign then an Identifier. -/
def parseVariableReference (l : List Char) :
    Option (ArgumentValue × List Char) :=
  match l with
  | '$' :: rest =>
    match parseIdentifier rest with
    | some (name, r) => some (.varRef name, r)
    | none => none
  | _ => none

/-- The Value rule: VariableReference, else Literal. -/
def parseValue (l : List Char) : Option (ArgumentValue × List Char) :=
  match parseVariableReference l with
  | some x => some x
  | none => parseLiteral l

/-- An argument as the grammar actions tag it, before `buildCommand` sorts the
arguments into the positional and named buckets. -/
inductive ParsedArg where
  | positional (value : ArgumentValue)
  | named (name : String) (value : ArgumentValue)
deriving DecidableEq, Repr

/-- The NamedArgument rule: an Identifier, a colon, and a Value. -/
def parseNamedArgument (l : List Char) : Option (ParsedArg × List Char) :=
  match parseIdentifier l with
  | some (name, ':' :: r1) =>
    match parseValue r1 with
    | some (v, r2) => some (.named name v, r2)
    | none => none
  | _ => none

/-- The PositionalArgument rule: a plain Value. -/
def parsePositionalArgument (l : List Char) : Option (ParsedArg × List Char) :=
  match parseValue l with
  | some (v, r) => some (.positional v, r)
  | none => none

/-- The Argument rule: NamedArgument is attempted first, PositionalArgument is
the fallback. -/
def parseArgument (l : List Char) : Option (ParsedArg × List Char) :=
  match parseNamedArgument l with
  | some x => some x
  | none => parsePositionalArgument l

theorem skipWs_length_le (l : List Char) : (skipWs l).length ≤ l.length := by
  generalize hn : l.length = n
  induction n using Nat.strong_induction_on generalizing l with
  | _ n ih =>
  subst hn
  rw [skipWs.eq_def]
  split
  · simp
  · rename_i c rest
    split
    · have := ih rest.length (by simp) rest rfl
      simp only [List.length_cons]
      omega
    · split
      · split
        · rename_i rest2
          have := ih rest2.length (by simp only [List.length_cons]; omega)
            rest2 rfl
          simp only [List.length_cons]
          omega
        · simp
      · split
        · split
          · rename_i rest2
            have hd : (dropComment rest2).length ≤ rest2.length :=
              dropWhile_length_le _ rest2
            have := ih (dropComment rest2).length
              (by simp only [List.length_cons]; omega) (dropComment rest2) rfl
            simp only [List.length_cons]
            omega
          · simp
        · simp

theorem parseCharRun_length {p : Char → Bool} {l : List Char} {s : String}
    {r : List Char} (h : parseCharRun p l = some (s, r)) :
    r.length < l.length := by
  unfold parseCharRun at h
  rcases hl : l.takeWhile p with _ | ⟨c, cs⟩
  · rw [hl] at h; exact absurd h (by simp)
  · rw [hl] at h
    have hsplit : (l.takeWhile p).length + (l.dropWhile p).length = l.length := by
      rw [← List.length_append, List.takeWhile_append_dropWhile]
    simp only [Option.some.injEq, Prod.mk.injEq] at h
    rcases h with ⟨_, hr⟩
    rw [← hr]
    rw [hl] at hsplit
    simp at hsplit
    omega

theorem parseQChars_length (l : List Char) :
    (parseQChars l).2.length ≤ l.length := by
  generalize hn : l.length = n
  induction n using Nat.strong_induction_on generalizing l with
  | _ n ih =>
  subst hn
  rw [parseQChars.eq_def]
  split
  · simp
  · rename_i c rest
    split
    · simp
    · split
      · split
        · simp
        · rename_i d rest2
          have := ih rest2.length (by simp only [List.length_cons]; omega)
            rest2 rfl
          rcases hq : parseQChars rest2 with ⟨cs, r⟩
          simp [hq] at this
          simp only [hq, List.length_cons]
          omega
      · have := ih rest.length (by simp) rest rfl
        rcases hq : parseQChars rest with ⟨cs, r⟩
        simp [hq] at this
        simp only [hq, List.length_cons]
        omega

theorem parseQuotedString_length {l : List Char} {s : String} {r : List Char}
    (h : parseQuotedString l = some (s, r)) : r.length < l.length := by
  unfold parseQuotedString at h
  split at h
  · rename_i rest
    have hq := parseQChars_length rest
    split at h
    · rename_i cs r2 heq
      simp only [Option.some.injEq, Prod.mk.injEq] at h
      rcases h with ⟨_, hr⟩
      subst hr
      simp [heq] at hq
      simp only [List.length_cons] at hq ⊢
      omega
    · exact absurd h (by simp)
  · exact absurd h (by simp)

theorem parseLiteral_length {l : List Char} {v : ArgumentValue} {r : List Char}
    (h : parseLiteral l = some (v, r)) : r.length < l.length := by
  unfold parseLiteral at h
  split at h
  · rename_i s r' hq
    simp only [Option.some.injEq, Prod.mk.injEq] at h
    rcases h with ⟨_, hr⟩
    subst hr
    exact parseQuotedString_length hq
  · split at h
    · rename_i s r' hu
      simp only [Option.some.injEq, Prod.mk.injEq] at h
      rcases h with ⟨_, hr⟩
      subst hr
      exact parseCharRun_length hu
    · exact absurd h (by simp)

theorem parseVariableReference_length {l : List Char} {v : ArgumentValue}
    {r : List Char} (h : parseVariableReference l = some (v, r)) :
    r.length < l.length := by
  unfold parseVariableReference at h
  split at h
  · rename_i rest
    split at h
    · rename_i name r' hi
      simp only [Option.some.injEq, Prod.mk.injEq] at h
      rcases h with ⟨_, hr⟩
      subst hr
      have := parseCharRun_length hi
      simp only [List.length_cons]
      omega
    · exact absurd h (by simp)
  · exact absurd h (by simp)

theorem parseValue_length {l : List Char} {v : ArgumentValue} {r : List Char}
    (h : parseValue l = some (v, r)) : r.length < l.length := by
  unfold parseValue at h
  split at h
  · rename_i x hv
    simp only [Option.some.injEq] at h
    subst h
    exact parseVariableReference_length hv
  · exact parseLiteral_length h

theorem parseArgument_length {l : List Char} {a : ParsedArg} {r : List Char}
    (h : parseArgument l = some (a, r)) : r.length < l.length := by
  unfold parseArgument at h
  split at h
  · rename_i x hn
    simp only [Option.some.injEq] at h
    subst h
    unfold parseNamedArgument at hn
    split at hn
    · rename_i name r1 hi
      split at hn
      · rename_i v r2 hv
        simp only [Option.some.injEq, Prod.mk.injEq] at hn
        rcases hn with ⟨_, hr⟩
        subst hr
        have h1 := parseCharRun_length hi
        have h2 := parseValue_length hv
        simp only [List.length_cons] at h1 h2 ⊢
        omega
      · exact absurd hn (by simp)
    · exact absurd hn (by simp)
  · unfold parsePositionalArgument at h
    split at h
    · rename_i v r' hv
      simp only [Option.some.injEq, Prod.mk.injEq] at h
      rcases h with ⟨_, hr⟩
      subst hr
      exact parseValue_length hv
    · exact absurd h (by simp)

/-- The star `args:(_ Argument)*` of the Command rule: each iteration skips
whitespace and parses one argument; an iteration whose argument fails is
backtracked wholly, leaving its whitespace unconsumed, and ends the star. -/
def parseArgs (l : List Char) : List ParsedArg × List Char :=
  match h : parseArgument (skipWs l) with
  | some (a, r) =>
    let (rest, r2) := parseArgs r
    (a :: rest, r2)
  | none => ([], l)
termination_by l.length
decreasing_by
  have h1 := parseArgument_length h
  have h2 := skipWs_length_le l
  omega

/-- One step of the argument collection in the grammar header helper: a
positional argument is pushed onto the positional list, a named argument is
written into the named-argument object with JavaScript property assignment. -/
def addArg (command : Command) (arg : ParsedArg) : Command :=
  match arg with
  | .positional value =>
    { command with positionalArgs := command.positionalArgs ++ [value] }
  | .named argName value =>
    { command with namedArgs := jsSet command.namedArgs argName value }

/-- The helper in the grammar header: sort the parsed arguments into the
positional list (in order) and the named-argument object, the latter written
key by key with JavaScript property assignment, so a repeated key keeps the
last value. -/
def buildCommand (name : String) (args : List ParsedArg) : Command :=
  args.foldl addArg { name := name, positionalArgs := [], namedArgs := [] }

/-- The Command rule: a CommandName then the argument star, combined by
`buildCommand`. -/
def parseCommand (l : List Char) : Option (Command × List Char) :=
  match parseCommandName l with
  | some (name, r) =>
    let (args, r2) := parseArgs r
    some (buildCommand name args, r2)
  | none => none

/-- The CommandExpression rule: `"(" _ Command _ ")"`. -/
def parseCommandExpression (l : List Char) : Option (Command × List Char) :=
  match l with
  | '(' :: r0 =>
    match parseCommand (skipWs r0) with
    | some (command, r1) =>
      match skipWs r1 with
      | ')' :: r2 => some (command, r2)
      | _ => none
    | none => none
  | _ => none

/-- The Assignment rule: `Identifier ":" _ CommandExpression _`, consuming
trailing whitespace. -/
def parseAssignment (l : List Char) : Option (Statement × List Char) :=
  match parseIdentifier l with
  | some (varName, ':' :: r1) =>
    match parseCommandExpression (skipWs r1) with
    | some (command, r2) => some (.assignment varName command, skipWs r2)
    | none => none
  | _ => none

/-- The ExecutableCommand rule: `CommandExpression _`, consuming trailing
whitespace. -/
def parseExecutableCommand (l : List Char) : Option (Statement × List Char) :=
  match parseCommandExpression l with
  | some (command, r) => some (.command command, skipWs r)
  | none => none

/-- The Statement rule: Assignment is attempted first, ExecutableCommand is
the fallback. -/
def parseStatement (l : List Char) : Option (Statement × List Char) :=
  match parseAssignment l with
  | some x => some x
  | none => parseExecutableCommand l

theorem parseArgs_length (l : List Char) :
    (parseArgs l).2.length ≤ l.length := by
  generalize hn : l.length = n
  induction n using Nat.strong_induction_on generalizing l with
  | _ n ih =>
  subst hn
  rw [parseArgs.eq_def]
  split
  · rename_i a r h
    have h1 := parseArgument_length h
    have h2 := skipWs_length_le l
    have h3 := ih r.length (by omega) r rfl
    rcases ha : parseArgs r with ⟨rest, r2⟩
    simp [ha] at h3
    simp only [ha]
    omega
  · simp

theorem parseCommand_length {l : List Char} {c : Command} {r : List Char}
    (h : parseCommand l = some (c, r)) : r.length < l.length := by
  unfold parseCommand at h
  split at h
  · rename_i name r' hn
    have h1 := parseCharRun_length hn
    have h2 := parseArgs_length r'
    rcases ha : parseArgs r' with ⟨args, r2⟩
    rw [ha] at h
    simp [ha] at h2
    simp only [Option.some.injEq, Prod.mk.injEq] at h
    rcases h with ⟨_, hr⟩
    subst hr
    omega
  · exact absurd h (by simp)

theorem parseCommandExpression_length {l : List Char} {c : Command}
    {r : List Char} (h : parseCommandExpression l = some (c, r)) :
    r.length < l.length := by
  unfold parseCommandExpression at h
  split at h
  · rename_i r0
    split at h
    · rename_i command r1 hc
      have h1 := parseCommand_length hc
      have h2 := skipWs_length_le r0
      have h3 := skipWs_length_le r1
      split at h
      · rename_i r2 heq
        simp only [Option.some.injEq, Prod.mk.injEq] at h
        rcases h with ⟨_, hr⟩
        subst hr
        have : (skipWs r1).length = r2.length + 1 := by rw [heq]; simp
        simp only [List.length_cons]
        omega
      · exact absurd h (by simp)
    · exact absurd h (by simp)
  · exact absurd h (by simp)

theorem parseStatement_length {l : List Char} {s : Statement} {r : List Char}
    (h : parseStatement l = some (s, r)) : r.length < l.length := by
  unfold parseStatement at h
  split at h
  · rename_i x ha
    simp only [Option.some.injEq] at h
    subst h
    unfold parseAssignment at ha
    split at ha
    · rename_i varName r1 hi
      split at ha
      · rename_i command r2 hc
        simp only [Option.some.injEq, Prod.mk.injEq] at ha
        rcases ha with ⟨_, hr⟩
        subst hr
        have h1 := parseCharRun_length hi
        have h2 := skipWs_length_le r1
        have h3 := parseCommandExpression_length hc
        have h4 := skipWs_length_le r2
        simp only [List.length_cons] at h1
        omega
      · exact absurd ha (by simp)
    · exact absurd ha (by simp)
  · unfold parseExecutableCommand at h
    split at h
    · rename_i command r' hc
      simp only [Option.some.injEq, Prod.mk.injEq] at h
      rcases h with ⟨_, hr⟩
      subst hr
      have h1 := parseCommandExpression_length hc
      have h2 := skipWs_length_le r'
      omega
    · exact absurd h (by simp)

/-- The star `Statement*` of the Program rule. -/
def parseStatements (l : List Char) : List Statement × List Char :=
  match h : parseStatement l with
  | some (s, r) =>
    let (rest, r2) := parseStatements r
    (s :: rest, r2)
  | none => ([], l)
termination_by l.length
decreasing_by
  have := parseStatement_length h
  omega

/-- The Program rule `_ Statement* _` as peggy applies it: the whole input
must be consumed, else the parse fails. -/
def parseProgram (l : List Char) : Option (List Statement) :=
  let (statements, r) := parseStatements (skipWs l)
  match skipWs r with
  | [] => some statements
  | _ => none

/-- `tokenize` from src/parser.ts, with the peggy parser modelled by
`parseProgram`: empty input short-circuits to an empty statement list, and a
parse failure is rethrown as an error (modelled without the location text of
the original message). -/
def tokenize (args : String) : Except String (List Statement) :=
  if args = "" then .ok []
  else
    match parseProgram args.data with
    | some statements => .ok statements
    | none => .error "Failed to parse command"

/-! Helper lemmas shared by the claim theorems. -/

theorem skipWs_nil : skipWs [] = [] := by
  rw [skipWs.eq_def]

theorem parseStatement_nil : parseStatement [] = none := rfl

theorem parseStatements_nil : parseStatements [] = ([], []) := by
  rw [parseStatements.eq_def, parseStatement_nil]

theorem execLoop_append (pre rest : List Statement)
    (commandMap : String → Option CommandDefinition)
    (ctx : List (String × JsValue)) (trace : List Invocation) :
    execLoop (pre ++ rest) commandMap ctx trace =
      match execLoop pre commandMap ctx trace with
      | (tr, .ok ctx2) => execLoop rest commandMap ctx2 tr
      | (tr, .error e) => (tr, .error e) := by
  induction pre generalizing ctx trace with
  | nil => simp [execLoop]
  | cons stmt pre ih =>
    rw [List.cons_append, execLoop, execLoop]
    rcases hc : commandMap stmt.cmd.name with _ | d
    · simp
    · simp only []
      rcases hr : resolveCommandArgs ctx stmt.cmd with e | ⟨pos, named⟩
      · simp
      · simp only []
        rcases ha : d.action pos named with msg | result
        · simp
        · rcases stmt with ⟨v, c⟩ | c
          · exact ih _ _
          · exact ih _ _

/-! Claim C1. The resolver tests the read value with `=== undefined`, and a
JavaScript property read cannot distinguish an absent key from a key bound to
the undefined value (for example the stored result of an action that returned
nothing), so resolution of a VariableRef whose name is present but bound to
undefined fails even though the name is in the bindings: the failure condition
is not absence of the name but the read yielding undefined. -/

/-- Claim C1 counterexample: in a binding context where the name x is present
but bound to the undefined value, resolving the command argument val:$x fails
with an UndefinedVariable error for x, so the resolver does not fail if and
only if the name is absent from the bindings. -/
theorem resolve_undefined_presence_counterexample :
    resolveCommandArgs [("x", JsValue.undefined)]
        { name := "deploy", positionalArgs := [],
          namedArgs := [("val", .varRef "x")] } =
      .error (.undefinedVariable "x") ∧
    "x" ∈ ([("x", JsValue.undefined)].map Prod.fst : List String) :=
  ⟨rfl, by simp⟩

/-- Claim C1 (amended): for every binding context and command argument, the
resolver resolves a Literal to itself and a VariableRef(name) by lookup in the
bindings; it fails with an UndefinedVariable error identifying name if and
only if the JavaScript read of name from the bindings yields undefined, that
is, when name is absent or bound to the undefined value; when the read yields
a defined value, resolution succeeds with that value's String()
representation. -/
theorem resolveArgument_lookup_spec (context : List (String × JsValue))
    (s name : String) :
    resolveArgument context (.lit s) = .ok s ∧
    (resolveArgument context (.varRef name) =
        .error (.undefinedVariable name) ↔
      (jsGet context name).isUndefined = true) ∧
    ((jsGet context name).isUndefined = false →
      resolveArgument context (.varRef name) =
        .ok (jsString (jsGet context name))) := by
  refine ⟨rfl, ?_, ?_⟩
  · unfold resolveArgument
    rcases h : (jsGet context name).isUndefined with _ | _ <;> simp [h]
  · intro h
    unfold resolveArgument
    simp [h]

/-- Claim C1 witness: the amended statement evaluated in the context binding x
to the string value v: the lookup of x is defined, and resolution of $x
succeeds with v. -/
theorem resolveArgument_lookup_spec_witness :
    resolveArgument [("x", JsValue.str "v")] (.varRef "x") = .ok "v" :=
  (resolveArgument_lookup_spec [("x", JsValue.str "v")] "s" "x").2.2 (by decide)

/-- Claim C10: when a VariableRef resolves to a bound value that is not a
string, the resolver converts it with JavaScript String(): an integer number
becomes its decimal text, a boolean becomes true or false, and a plain object
becomes [object Object] whatever its fields, rather than a JSON or other
canonical serialization. -/
theorem resolveArgument_string_conversion (context : List (String × JsValue))
    (name : String) :
    (∀ n : Int, jsGet context name = .num n →
      resolveArgument context (.varRef name) = .ok (toString n)) ∧
    (∀ b : Bool, jsGet context name = .bool b →
      resolveArgument context (.varRef name) =
        .ok (if b then "true" else "false")) ∧
    (∀ fields, jsGet context name = .obj fields →
      resolveArgument context (.varRef name) = .ok "[object Object]") := by
  refine ⟨?_, ?_, ?_⟩ <;> intro v h <;>
    simp [resolveArgument, h, JsValue.isUndefined, jsString]

/-- Claim C10 witness: the conversion evaluated at concrete bound values: the
number 42 resolves to the text 42, the boolean true to true, and an object
with a field to [object Object]. -/
theorem resolveArgument_string_conversion_witness :
    resolveArgument [("n", JsValue.num 42)] (.varRef "n") = .ok "42" ∧
    resolveArgument [("b", JsValue.bool true)] (.varRef "b") = .ok "true" ∧
    resolveArgument [("o", JsValue.obj [("env", JsValue.str "prod")])]
        (.varRef "o") = .ok "[object Object]" :=
  ⟨(resolveArgument_string_conversion [("n", JsValue.num 42)] "n").1 42 rfl,
   (resolveArgument_string_conversion [("b", JsValue.bool true)] "b").2.1
     true rfl,
   (resolveArgument_string_conversion
       [("o", JsValue.obj [("env", JsValue.str "prod")])] "o").2.2
     [("env", JsValue.str "prod")] rfl⟩

/-- The registry of the sequential-binding scenario: A's action returns the
string 42, B's action returns nothing (undefined). -/
def cmdMapAB : String → Option CommandDefinition :=
  fun name =>
    if name = "A" then some { action := fun _ _ => .ok (.str "42") }
    else if name = "B" then some { action := fun _ _ => .ok .undefined }
    else none

/-- Claim C2: executing x:(A) (B val:$x), where the action of A returns the
string 42, invokes A and then invokes B with named argument val = 42 and binds
x; executing the reversed sequence (B val:$x) x:(A) fails with an
UndefinedVariable error for x before any action runs, so nothing has mutated
the bindings when the failure occurs. -/
theorem sequential_binding_visibility :
    executeStatements
        [.assignment "x" { name := "A", positionalArgs := [], namedArgs := [] },
         .command { name := "B", positionalArgs := [],
                    namedArgs := [("val", .varRef "x")] }] cmdMapAB =
      ([{ name := "A", positionalArgs := [], namedArgs := [] },
        { name := "B", positionalArgs := [], namedArgs := [("val", "42")] }],
        .ok [("x", .str "42")]) ∧
    executeStatements
        [.command { name := "B", positionalArgs := [],
                    namedArgs := [("val", .varRef "x")] },
         .assignment "x" { name := "A", positionalArgs := [], namedArgs := [] }]
        cmdMapAB =
      ([], .error (.resolve (.undefinedVariable "x"))) :=
  ⟨rfl, rfl⟩

/-! Claim C3. The executor has no try/catch: a failing action aborts the run
and the error object propagates to the caller unchanged, with no wrapping that
names the failing command or its position in the sequence. -/

/-- The registry of the failing-action scenario: the action of fail-cmd throws
the message disk full. -/
def cmdMapFail : String → Option CommandDefinition :=
  fun name =>
    if name = "fail-cmd" then some { action := fun _ _ => .error "disk full" }
    else if name = "ok-cmd" then some { action := fun _ _ => .ok .undefined }
    else none

/-- A decidable check that `sub` occurs as a contiguous run inside `l`. -/
def startsWithSeq : List Char → List Char → Bool
  | [], _ => true
  | _ :: _, [] => false
  | a :: as, b :: bs => a = b && startsWithSeq as bs

/-- Whether `sub` occurs contiguously anywhere in the second list. -/
def containsSeq (sub : List Char) : List Char → Bool
  | [] => startsWithSeq sub []
  | l@(_ :: t) => startsWithSeq sub l || containsSeq sub t

/-- Claim C3 counterexample: running (fail-cmd), whose action throws the
message disk full, aborts with exactly the raw action error: the propagated
error is the verbatim message, which names neither the failing command nor any
position in the sequence, so the error is not wrapped with statement
context. -/
theorem action_error_not_wrapped_counterexample :
    executeStatements
        [.command { name := "fail-cmd", positionalArgs := [], namedArgs := [] }]
        cmdMapFail =
      ([{ name := "fail-cmd", positionalArgs := [], namedArgs := [] }],
        .error (.actionError "disk full")) ∧
    containsSeq "fail-cmd".data "disk full".data = false ∧
    containsSeq "1".data "disk full".data = false :=
  ⟨rfl, by decide, by decide⟩

/-- Claim C3 (amended): for every statement sequence in which the action of
the i-th statement fails, no statement after i is executed (the invocation
trace ends at the failing statement and contains nothing from the suffix), the
action's error is propagated verbatim, not wrapped with statement context, and
the binding context built by the prior successful statements is not returned
to the caller: the run as a whole fails. -/
theorem failing_action_aborts (pre post : List Statement) (s : Statement)
    (commandMap : String → Option CommandDefinition) (tr : List Invocation)
    (ctx : List (String × JsValue)) (d : CommandDefinition)
    (pos : List String) (named : List (String × String)) (msg : String)
    (hpre : execLoop pre commandMap [] [] = (tr, .ok ctx))
    (hcmd : commandMap s.cmd.name = some d)
    (hres : resolveCommandArgs ctx s.cmd = .ok (pos, named))
    (hact : d.action pos named = .error msg) :
    executeStatements (pre ++ s :: post) commandMap =
      (tr ++ [{ name := s.cmd.name, positionalArgs := pos,
                namedArgs := named }],
        .error (.actionError msg)) := by
  unfold executeStatements
  rw [execLoop_append, hpre]
  simp only []
  rw [execLoop, hcmd]
  simp only []
  rw [hres]
  simp only []
  rw [hact]

/-- Claim C3 witness: the amended statement evaluated on the concrete run
(ok-cmd) (fail-cmd) (ok-cmd): the first statement succeeds, the second fails
with the raw message disk full, and the third never appears in the trace. -/
theorem failing_action_aborts_witness :
    executeStatements
        [.command { name := "ok-cmd", positionalArgs := [], namedArgs := [] },
         .command { name := "fail-cmd", positionalArgs := [], namedArgs := [] },
         .command { name := "ok-cmd", positionalArgs := [], namedArgs := [] }]
        cmdMapFail =
      ([{ name := "ok-cmd", positionalArgs := [], namedArgs := [] },
        { name := "fail-cmd", positionalArgs := [], namedArgs := [] }],
        .error (.actionError "disk full")) := by
  have h := failing_action_aborts
    [.command { name := "ok-cmd", positionalArgs := [], namedArgs := [] }]
    [.command { name := "ok-cmd", positionalArgs := [], namedArgs := [] }]
    (.command { name := "fail-cmd", positionalArgs := [], namedArgs := [] })
    cmdMapFail
    [{ name := "ok-cmd", positionalArgs := [], namedArgs := [] }] []
    { action := fun _ _ => .error "disk full" } [] [] "disk full"
    rfl rfl rfl rfl
  exact h

/-- Claim C4: if a command is registered with a non-empty returns annotation,
validating a bare invocation of it yields exactly one error, whose message
contains the command name and the words must be assigned to a variable, and
the run aborts with that validation error before any statement executes (the
invocation trace is empty); validating an Assignment statement invoking the
same command yields no error, and when its action succeeds the run proceeds
and binds the variable to the returned value. -/
theorem return_contract_enforcement
    (commandMap : String → Option CommandDefinition) (name x : String)
    (d : CommandDefinition) (ret : String) (v : JsValue)
    (hlook : commandMap name = some d) (hret : d.returns = some ret)
    (hne : ret ≠ "") :
    validateStatements
        [.command { name := name, positionalArgs := [], namedArgs := [] }]
        commandMap = [mustAssignMsg name ret] ∧
    (∃ p q, mustAssignMsg name ret = p ++ name ++ q) ∧
    (∃ p q, mustAssignMsg name ret =
      p ++ "must be assigned to a variable" ++ q) ∧
    runStatements
        [.command { name := name, positionalArgs := [], namedArgs := [] }]
        commandMap = ([], .error (.validation [mustAssignMsg name ret])) ∧
    validateStatements
        [.assignment x { name := name, positionalArgs := [], namedArgs := [] }]
        commandMap = [] ∧
    (d.action [] [] = .ok v →
      runStatements
          [.assignment x
            { name := name, positionalArgs := [], namedArgs := [] }]
          commandMap =
        ([{ name := name, positionalArgs := [], namedArgs := [] }],
          .ok [(x, v)])) := by
  have hval : validateStatements
      [.command { name := name, positionalArgs := [], namedArgs := [] }]
      commandMap = [mustAssignMsg name ret] := by
    simp [validateStatements, Statement.cmd, Statement.isBare, hlook, hret,
      returnsTruthy, hne]
  have hvalAssign : validateStatements
      [.assignment x { name := name, positionalArgs := [], namedArgs := [] }]
      commandMap = [] := by
    simp [validateStatements, Statement.cmd, Statement.isBare, hlook, hret,
      returnsTruthy, hne]
  refine ⟨hval, ?_, ?_, ?_, hvalAssign, ?_⟩
  · refine ⟨"Command \x27",
      "\x27 returns a value and must be assigned to a variable\n" ++
        ("  Expected: varname:(" ++ name ++ " ...) or _:(" ++ name ++
          " ...) to ignore the return value\n" ++ ("  Returns: " ++ ret)), ?_⟩
    unfold mustAssignMsg
    simp only [String.append_assoc]
  · refine ⟨"Command \x27" ++ name ++ "\x27 returns a value and ",
      "\n" ++ ("  Expected: varname:(" ++ name ++ " ...) or _:(" ++ name ++
        " ...) to ignore the return value\n" ++ ("  Returns: " ++ ret)), ?_⟩
    unfold mustAssignMsg
    have hsplit :
        ("\x27 returns a value and must be assigned to a variable\n" :
          String) =
        "\x27 returns a value and " ++ "must be assigned to a variable" ++
          "\n" := rfl
    rw [hsplit]
    simp only [String.append_assoc]
  · unfold runStatements
    rw [hval]
    simp
  · intro hact
    unfold runStatements
    rw [hvalAssign]
    simp only [if_pos rfl]
    unfold executeStatements
    rw [execLoop]
    simp only [Statement.cmd]
    rw [hlook]
    simp only []
    have hres : resolveCommandArgs []
        { name := name, positionalArgs := [], namedArgs := [] } =
        .ok ([], []) := rfl
    rw [hres]
    simp only []
    rw [hact]
    simp [execLoop, jsSet, Except.mapError]

/-- Claim C4 witness: the enforcement evaluated on a registry holding
get-config with returns string: the bare run aborts with the must-assign
message and an empty trace, and the assigned run binds cfg to the returned
path. -/
theorem return_contract_enforcement_witness :
    runStatements
        [.command { name := "get-config", positionalArgs := [],
                    namedArgs := [] }]
        (fun n => if n = "get-config" then
          some { action := fun _ _ => .ok (.str "/path"),
                 returns := some "string" }
          else none) =
      ([], .error (.validation [mustAssignMsg "get-config" "string"])) ∧
    runStatements
        [.assignment "cfg"
          { name := "get-config", positionalArgs := [], namedArgs := [] }]
        (fun n => if n = "get-config" then
          some { action := fun _ _ => .ok (.str "/path"),
                 returns := some "string" }
          else none) =
      ([{ name := "get-config", positionalArgs := [], namedArgs := [] }],
        .ok [("cfg", .str "/path")]) := by
  have h := return_contract_enforcement
    (fun n => if n = "get-config" then
      some { action := fun _ _ => .ok (JsValue.str "/path"),
             returns := some "string" }
      else none)
    "get-config" "cfg"
    { action := fun _ _ => .ok (JsValue.str "/path"),
      returns := some "string" }
    "string" (.str "/path") rfl rfl (by decide)
  exact ⟨h.2.2.2.1, h.2.2.2.2.2 rfl⟩

/-- Claim C5: for every statement sequence in which every statement references
a command name absent from the registry, with all those names distinct,
validation returns exactly one unknown-command error per statement, in order,
without short-circuiting: the error list is the map of the statements to their
unknown-command messages and its length equals the number of statements. -/
theorem validation_exhaustiveness (statements : List Statement)
    (commandMap : String → Option CommandDefinition)
    (habsent : ∀ stmt ∈ statements, commandMap stmt.cmd.name = none)
    (hdistinct : (statements.map (fun stmt => stmt.cmd.name)).Nodup) :
    validateStatements statements commandMap =
      statements.map (fun stmt => unknownCommandMsg stmt.cmd.name) ∧
    (validateStatements statements commandMap).length = statements.length := by
  have hmap : validateStatements statements commandMap =
      statements.map (fun stmt => unknownCommandMsg stmt.cmd.name) := by
    clear hdistinct
    induction statements with
    | nil => rfl
    | cons stmt rest ih =>
      rw [validateStatements, habsent stmt (by simp)]
      simp only [List.map_cons, List.cons.injEq, true_and]
      exact ih (fun s hs => habsent s (by simp [hs]))
  refine ⟨hmap, ?_⟩
  rw [hmap, List.length_map]

/-- Claim C5 witness: validation of two statements naming the unknown commands
foo and bar against an empty registry reports both unknown-command errors. -/
theorem validation_exhaustiveness_witness :
    validateStatements
        [.command { name := "foo", positionalArgs := [], namedArgs := [] },
         .assignment "x"
           { name := "bar", positionalArgs := [], namedArgs := [] }]
        (fun _ => none) =
      [unknownCommandMsg "foo", unknownCommandMsg "bar"] ∧
    (validateStatements
        [.command { name := "foo", positionalArgs := [], namedArgs := [] },
         .assignment "x"
           { name := "bar", positionalArgs := [], namedArgs := [] }]
        (fun _ => none)).length = 2 :=
  validation_exhaustiveness
    [.command { name := "foo", positionalArgs := [], namedArgs := [] },
     .assignment "x" { name := "bar", positionalArgs := [], namedArgs := [] }]
    (fun _ => none) (fun _ _ => rfl) (by decide)

/-! Claim C6 support: lookups into the named-argument object built by
`buildCommand`. -/

/-- The value at a key of a named-argument association list, as a JavaScript
property read would see it. -/
def lookupArg (m : List (String × ArgumentValue)) (k : String) :
    Option ArgumentValue :=
  (m.find? (fun p => p.1 = k)).map (fun p => p.2)

/-- The value of the last named argument with key `k` in a parsed argument
list, in source order, if any. -/
def lastNamed (k : String) (args : List ParsedArg) : Option ArgumentValue :=
  (args.filterMap (fun a => match a with
    | .named k2 v => if k2 = k then some v else none
    | .positional _ => none)).getLast?

theorem find?_jsSet_replace {v : ArgumentValue} {k k2 : String}
    (m : List (String × ArgumentValue)) (hk : k2 ≠ k) :
    (m.map (fun p => if p.1 = k then (k, v) else p)).find?
        (fun p => p.1 = k2) =
      m.find? (fun p => p.1 = k2) := by
  induction m with
  | nil => rfl
  | cons b m ih =>
    by_cases hb : b.1 = k
    · simp only [List.map_cons, hb, if_pos rfl, List.find?_cons]
      have h1 : ((k, v).1 = k2) = False := by simp [Ne.symm hk]
      have h2 : (b.1 = k2) = False := by simp [hb, Ne.symm hk]
      simp [h1, h2, ih]
    · simp only [List.map_cons, if_neg hb, List.find?_cons]
      by_cases hb2 : b.1 = k2 <;> simp [hb2, ih]

theorem lookupArg_jsSet (m : List (String × ArgumentValue)) (k k2 : String)
    (v : ArgumentValue) :
    lookupArg (jsSet m k v) k2 =
      if k2 = k then some v else lookupArg m k2 := by
  induction m with
  | nil =>
    by_cases h : k2 = k
    · subst h
      simp [jsSet, lookupArg, List.find?_cons]
    · simp [jsSet, lookupArg, List.find?_cons, h, Ne.symm h]
  | cons a m ih =>
    by_cases ha : a.1 = k
    · have e1 : jsSet (a :: m) k v =
          (k, v) :: m.map (fun p => if p.1 = k then (k, v) else p) := by
        simp [jsSet, List.any_cons, ha]
      rw [e1]
      by_cases h2 : k2 = k
      · subst h2
        simp [lookupArg, List.find?_cons]
      · have hrepl := find?_jsSet_replace (v := v) m h2
        simp only [lookupArg, List.find?_cons]
        have hk1 : (((k, v).1 = k2) : Prop) = False := by
          simp [Ne.symm h2]
        have hak : ((a.1 = k2) : Prop) = False := by
          rw [ha]
          simp [Ne.symm h2]
        simp [hk1, hak, hrepl, h2, lookupArg]
    · by_cases hm : m.any (fun p => p.1 = k)
      · have e1 : jsSet (a :: m) k v =
            a :: m.map (fun p => if p.1 = k then (k, v) else p) := by
          simp [jsSet, List.any_cons, hm, if_neg ha]
        have e2 : jsSet m k v =
            m.map (fun p => if p.1 = k then (k, v) else p) := by
          simp [jsSet, hm]
        rw [e1]
        rw [e2] at ih
        by_cases hb2 : a.1 = k2
        · have hk2 : ¬ k2 = k := fun h => ha (hb2.trans h)
          simp [lookupArg, List.find?_cons, hb2, hk2]
        · simp only [lookupArg, List.find?_cons] at ih ⊢
          simp only [hb2, decide_False] at *
          simpa using ih
      · have hcons : ¬ (((a :: m).any (fun p => p.1 = k)) = true) := by
          simp only [List.any_cons, Bool.or_eq_true, decide_eq_true_eq]
          rintro (h | h)
          · exact ha h
          · exact hm h
        have e1 : jsSet (a :: m) k v = a :: (m ++ [(k, v)]) := by
          simp only [jsSet]
          rw [if_neg hcons]
          rfl
        have e2 : jsSet m k v = m ++ [(k, v)] := by
          simp only [jsSet]
          rw [if_neg hm]
        rw [e1]
        rw [e2] at ih
        by_cases hb2 : a.1 = k2
        · have hk2 : ¬ k2 = k := fun h => ha (by rw [hb2, h])
          simp [lookupArg, List.find?_cons, hb2, hk2]
        · simp only [lookupArg, List.find?_cons] at ih ⊢
          simp only [hb2, decide_False] at *
          simpa using ih

theorem keys_jsSet (m : List (String × ArgumentValue)) (k : String)
    (v : ArgumentValue) :
    (jsSet m k v).map Prod.fst =
      if m.any (fun p => p.1 = k) then m.map Prod.fst
      else m.map Prod.fst ++ [k] := by
  unfold jsSet
  by_cases h : m.any (fun p => p.1 = k) <;> simp only [h, if_true, if_false,
    Bool.false_eq_true, List.map_append, List.map_cons, List.map_nil]
  · rw [List.map_map]
    apply List.map_congr_left
    intro p _
    by_cases hp : p.1 = k <;> simp [hp]

theorem nodup_keys_foldl (args : List ParsedArg) (cmd : Command)
    (h : (cmd.namedArgs.map Prod.fst).Nodup) :
    ((args.foldl addArg cmd).namedArgs.map Prod.fst).Nodup := by
  induction args generalizing cmd with
  | nil => exact h
  | cons a args ih =>
    rw [List.foldl_cons]
    apply ih
    rcases a with v | ⟨k, v⟩
    · simpa [addArg]
    · simp only [addArg]
      rw [keys_jsSet]
      by_cases hk : cmd.namedArgs.any (fun p => p.1 = k)
      · simpa [hk]
      · simp only [hk, Bool.false_eq_true, if_false]
        rw [List.nodup_append]
        refine ⟨h, List.nodup_singleton k, ?_⟩
        intro x hx hx2
        simp only [List.mem_singleton] at hx2
        subst hx2
        simp only [List.mem_map] at hx
        rcases hx with ⟨p, hp, hpk⟩
        simp only [List.any_eq_true, decide_eq_true_eq] at hk
        exact hk ⟨p, hp, hpk⟩

theorem getLast?_cons_or {α : Type} (a : α) (l : List α) :
    (a :: l).getLast? = (l.getLast?).or (some a) := by
  induction l generalizing a with
  | nil => rfl
  | cons b bs ih =>
    rw [List.getLast?_cons_cons, ih b]
    rcases hb : bs.getLast? with _ | z <;> simp [hb]

theorem lookupArg_foldl (args : List ParsedArg) (cmd : Command) (k : String) :
    lookupArg ((args.foldl addArg cmd).namedArgs) k =
      (lastNamed k args).or (lookupArg cmd.namedArgs k) := by
  induction args generalizing cmd with
  | nil => simp [lastNamed]
  | cons a args ih =>
    rw [List.foldl_cons, ih]
    rcases a with v | ⟨k2, v⟩
    · simp [addArg, lastNamed]
    · simp only [addArg]
      rw [lookupArg_jsSet]
      by_cases hk : k2 = k
      · subst hk
        have hsome : ∀ x : Option ArgumentValue, (some v).or x = some v :=
          fun _ => rfl
        simp only [lastNamed, List.filterMap_cons, if_pos rfl]
        simp only [if_true, ite_true]
        rw [getLast?_cons_or, Option.or_assoc, hsome]
      · have hne : ¬ k = k2 := fun h => hk h.symm
        simp only [lastNamed, List.filterMap_cons, if_neg hk, if_neg hne]

/-- Claim C6: the parser accepts a repeated named-argument key within one
command, as in (cmd a:1 a:2), and the argument-collection step keeps the last
occurrence in source order for that key; in general the value stored under a
key in the built namedArgs object is the last named argument with that key,
and the keys of the built object are unique. -/
theorem duplicate_named_key_last_wins :
    tokenize "(cmd a:1 a:2)" =
      .ok [.command { name := "cmd", positionalArgs := [],
                      namedArgs := [("a", .lit "2")] }] ∧
    (∀ (name : String) (args : List ParsedArg) (k : String),
      lookupArg (buildCommand name args).namedArgs k = lastNamed k args) ∧
    (∀ (name : String) (args : List ParsedArg),
      ((buildCommand name args).namedArgs.map Prod.fst).Nodup) := by
  refine ⟨?_, ?_, ?_⟩
  · have hdata : "(cmd a:1 a:2)".data =
        ['(', 'c', 'm', 'd', ' ', 'a', ':', '1', ' ', 'a', ':', '2', ')'] :=
      rfl
    have hsw0 : skipWs
        ['(', 'c', 'm', 'd', ' ', 'a', ':', '1', ' ', 'a', ':', '2', ')'] =
        ['(', 'c', 'm', 'd', ' ', 'a', ':', '1', ' ', 'a', ':', '2', ')'] := by
      simp [skipWs, isWsChar]
    have hsw1 : skipWs
        ['c', 'm', 'd', ' ', 'a', ':', '1', ' ', 'a', ':', '2', ')'] =
        ['c', 'm', 'd', ' ', 'a', ':', '1', ' ', 'a', ':', '2', ')'] := by
      simp [skipWs, isWsChar]
    have hargs3 : parseArgs [')'] = ([], [')']) := by
      rw [parseArgs.eq_def]
      have h1 : skipWs [')'] = [')'] := by simp [skipWs, isWsChar]
      rw [h1]
      have h2 : parseArgument [')'] = none := rfl
      rw [h2]
    have hargs2 : parseArgs [' ', 'a', ':', '2', ')'] =
        ([.named "a" (.lit "2")], [')']) := by
      rw [parseArgs.eq_def]
      have h1 : skipWs [' ', 'a', ':', '2', ')'] = ['a', ':', '2', ')'] := by
        simp [skipWs, isWsChar]
      rw [h1]
      have h2 : parseArgument ['a', ':', '2', ')'] =
          some (.named "a" (.lit "2"), [')']) := rfl
      rw [h2]
      simp [hargs3]
    have hargs1 : parseArgs [' ', 'a', ':', '1', ' ', 'a', ':', '2', ')'] =
        ([.named "a" (.lit "1"), .named "a" (.lit "2")], [')']) := by
      rw [parseArgs.eq_def]
      have h1 : skipWs [' ', 'a', ':', '1', ' ', 'a', ':', '2', ')'] =
          ['a', ':', '1', ' ', 'a', ':', '2', ')'] := by
        simp [skipWs, isWsChar]
      rw [h1]
      have h2 : parseArgument ['a', ':', '1', ' ', 'a', ':', '2', ')'] =
          some (.named "a" (.lit "1"), [' ', 'a', ':', '2', ')']) := rfl
      rw [h2]
      simp [hargs2]
    have hcmd : parseCommand
        ['c', 'm', 'd', ' ', 'a', ':', '1', ' ', 'a', ':', '2', ')'] =
        some ({ name := "cmd", positionalArgs := [],
                namedArgs := [("a", .lit "2")] }, [')']) := by
      rw [parseCommand]
      have h1 : parseCommandName
          ['c', 'm', 'd', ' ', 'a', ':', '1', ' ', 'a', ':', '2', ')'] =
          some ("cmd", [' ', 'a', ':', '1', ' ', 'a', ':', '2', ')']) := rfl
      rw [h1]
      simp [hargs1]
      rfl
    have hce : parseCommandExpression
        ['(', 'c', 'm', 'd', ' ', 'a', ':', '1', ' ', 'a', ':', '2', ')'] =
        some ({ name := "cmd", positionalArgs := [],
                namedArgs := [("a", .lit "2")] }, []) := by
      rw [parseCommandExpression]
      rw [hsw1, hcmd]
      have h1 : skipWs [')'] = [')'] := by simp [skipWs, isWsChar]
      simp [h1]
    have hstmt : parseStatement
        ['(', 'c', 'm', 'd', ' ', 'a', ':', '1', ' ', 'a', ':', '2', ')'] =
        some (.command { name := "cmd", positionalArgs := [],
                         namedArgs := [("a", .lit "2")] }, []) := by
      rw [parseStatement]
      have h1 : parseAssignment
          ['(', 'c', 'm', 'd', ' ', 'a', ':', '1', ' ', 'a', ':', '2', ')'] =
          none := rfl
      rw [h1]
      rw [parseExecutableCommand, hce]
      simp [skipWs_nil]
    have hstmts : parseStatements
        ['(', 'c', 'm', 'd', ' ', 'a', ':', '1', ' ', 'a', ':', '2', ')'] =
        ([.command { name := "cmd", positionalArgs := [],
                     namedArgs := [("a", .lit "2")] }], []) := by
      rw [parseStatements.eq_def, hstmt]
      simp [parseStatements_nil]
    rw [tokenize, if_neg (by decide)]
    rw [hdata]
    rw [parseProgram]
    rw [hsw0, hstmts]
    simp [skipWs_nil]
  · intro name args k
    unfold buildCommand
    rw [lookupArg_foldl]
    simp [lookupArg]
  · intro name args
    exact nodup_keys_foldl args _ (by simp)

/-! Claim C7 support: a maximal identifier run followed by a colon. -/

theorem takeWhile_all_append {p : Char → Bool} (id : List Char) (x : Char)
    (rest : List Char) (hid : ∀ c ∈ id, p c = true) (hx : p x = false) :
    (id ++ x :: rest).takeWhile p = id ∧
    (id ++ x :: rest).dropWhile p = x :: rest := by
  induction id with
  | nil => simp [List.takeWhile_cons, List.dropWhile_cons, hx]
  | cons c id ih =>
    have hc : p c = true := hid c (by simp)
    have ⟨h1, h2⟩ := ih (fun d hd => hid d (by simp [hd]))
    simp [List.takeWhile_cons, List.dropWhile_cons, hc, h1, h2]

/-- Claim C7: a command argument of the form identifier colon value always
parses as a named argument with that identifier as its name and that value as
its value, never as a positional token, because the named-argument production
is attempted before the positional one: for every non-empty run of identifier
characters followed by a colon and a parseable Value, the Argument rule
returns the named form. -/
theorem named_argument_precedence (id rest r : List Char) (v : ArgumentValue)
    (hid : ∀ c ∈ id, isIdentChar c = true) (hne : id ≠ [])
    (hv : parseValue rest = some (v, r)) :
    parseArgument (id ++ ':' :: rest) =
      some (.named (String.mk id) v, r) := by
  have hcolon : isIdentChar ':' = false := rfl
  obtain ⟨ht, hd⟩ := takeWhile_all_append id ':' rest hid hcolon
  have hident : parseIdentifier (id ++ ':' :: rest) =
      some (String.mk id, ':' :: rest) := by
    unfold parseIdentifier parseCharRun
    rw [ht, hd]
    rcases id with _ | ⟨c, cs⟩
    · exact absurd rfl hne
    · rfl
  have hna : parseNamedArgument (id ++ ':' :: rest) =
      some (.named (String.mk id) v, r) := by
    unfold parseNamedArgument
    rw [hident]
    simp [hv]
  unfold parseArgument
  rw [hna]

/-- Claim C7 witness: the precedence evaluated on the text a:b followed by a
closing parenthesis: the argument parses as the named argument a with value b,
not as positional tokens. -/
theorem named_argument_precedence_witness :
    parseArgument ['a', ':', 'b', ')'] =
      some (.named "a" (.lit "b"), [')']) := by
  have h := named_argument_precedence ['a'] ['b', ')'] [')'] (.lit "b")
    (by decide) (by decide) rfl
  exact h

/-! Claim C8 support: the decoded character star of the QuotedString rule on
plain text. -/

theorem parseQChars_plain (s rest : List Char)
    (h : ∀ c ∈ s, c ≠ '"' ∧ c ≠ '\\') :
    parseQChars (s ++ '"' :: rest) = (s, '"' :: rest) := by
  induction s with
  | nil =>
    rw [List.nil_append, parseQChars.eq_def]
    simp
  | cons c s ih =>
    obtain ⟨h1, h2⟩ := h c (by simp)
    rw [List.cons_append, parseQChars.eq_def]
    simp only [if_neg h1, if_neg h2]
    rw [ih (fun d hd => h d (by simp [hd]))]

/-- Claim C8: for every character sequence s containing neither a double quote
nor a backslash, parsing s surrounded by double quotes as an argument yields a
positional literal equal to s exactly; and for every character c, a backslash
followed by c inside a quoted string decodes to the single literal character
c, with no fixed escape table: unescaping drops the backslash. -/
theorem quoting_invariant :
    (∀ (s rest : List Char), (∀ c ∈ s, c ≠ '"' ∧ c ≠ '\\') →
      parseArgument ('"' :: (s ++ '"' :: rest)) =
        some (.positional (.lit (String.mk s)), rest)) ∧
    (∀ (c : Char) (rest : List Char),
      parseQChars ('\\' :: c :: rest) =
        (c :: (parseQChars rest).1, (parseQChars rest).2)) := by
  constructor
  · intro s rest h
    have hq : parseQuotedString ('"' :: (s ++ '"' :: rest)) =
        some (String.mk s, rest) := by
      show (match parseQChars (s ++ '"' :: rest) with
        | (cs, '"' :: r2) => some (String.mk cs, r2)
        | _ => none) = some (String.mk s, rest)
      rw [parseQChars_plain s rest h]
      rfl
    have hna : parseNamedArgument ('"' :: (s ++ '"' :: rest)) = none := rfl
    unfold parseArgument
    rw [hna]
    unfold parsePositionalArgument parseValue
    have hvr : parseVariableReference ('"' :: (s ++ '"' :: rest)) = none := rfl
    rw [hvr]
    unfold parseLiteral
    rw [hq]
  · intro c rest
    show (match parseQChars rest with
      | (cs, r) => (c :: cs, r)) =
      (c :: (parseQChars rest).1, (parseQChars rest).2)
    rcases hq : parseQChars rest with ⟨cs, r⟩
    simp

/-- Claim C8 witness: the quoting invariant evaluated on the quoted text hi
and on the escaped pair backslash quote: the first parses to the positional
literal hi, and the second decodes to a literal quote character. -/
theorem quoting_invariant_witness :
    parseArgument ['"', 'h', 'i', '"'] =
      some (.positional (.lit "hi"), []) ∧
    parseQChars ['\\', '"', 'a'] =
      ('"' :: (parseQChars ['a']).1, (parseQChars ['a']).2) :=
  ⟨quoting_invariant.1 ['h', 'i'] [] (by decide),
   quoting_invariant.2 '"' ['a']⟩

/-- Claim C9: parsing the empty string yields an empty statement sequence and
no error; and parsing any input consisting only of whitespace, line
continuations, and line comments, that is, any input the whitespace rule
consumes entirely, also yields an empty statement sequence and no error, in
particular the input of three spaces, a line comment, and a newline. -/
theorem empty_input_parses_empty :
    tokenize "" = .ok [] ∧
    tokenize "   // just a comment\n" = .ok [] ∧
    (∀ s : String, skipWs s.data = [] → tokenize s = .ok []) := by
  have hgen : ∀ s : String, skipWs s.data = [] → tokenize s = .ok [] := by
    intro s h
    unfold tokenize
    by_cases hs : s = ""
    · simp [hs]
    · rw [if_neg hs]
      unfold parseProgram
      rw [h, parseStatements_nil]
      simp [skipWs_nil]
  refine ⟨rfl, ?_, hgen⟩
  apply hgen
  show skipWs ("   // just a comment\n".data) = []
  have hdata : "   // just a comment\n".data =
      [' ', ' ', ' ', '/', '/', ' ', 'j', 'u', 's', 't', ' ', 'a', ' ',
       'c', 'o', 'm', 'm', 'e', 'n', 't', '\n'] := rfl
  rw [hdata]
  simp [skipWs, isWsChar, dropComment]

/-- Claim C9 witness: the general whitespace-only statement applied to the
concrete input of a tab, a line continuation, and a line comment. -/
theorem empty_input_parses_empty_witness :
    tokenize "\t\\\n// x" = .ok [] := by
  apply empty_input_parses_empty.2.2
  have hdata : "\t\\\n// x".data =
      ['\t', '\\', '\n', '/', '/', ' ', 'x'] := rfl
  rw [hdata]
  simp [skipWs, isWsChar, dropComment]

end Yesod
